import Mathlib

/-!
Shallow embedding of the anytime simulated-annealing local-search
facility-location solver from
`blake_approx_solution/facility_location_exact_blake.py`.

Modelling conventions:

* An instance is represented by the data the solver actually consumes:
  the number of clients `C` (the Python code takes `C = len(dist)`),
  the number of facilities `F`, the precomputed distance matrix
  `dist : ℕ → ℕ → ℚ` (`dist c f` models `dist[c][f]`, the Euclidean
  distance from client `c` to facility `f` computed by
  `precompute_distances`), and the scalar `coverage`.
  Python floats are modelled by rationals; the float `inf` sentinel is
  modelled by `none : Option ℚ`.
* The results of the calls to the random number generator
  (`rng.choice`, `rng.random`) and the wall-clock deadline test
  `time.time() < time_deadline` are abstracted into an oracle stream of
  `Decision` records, one per loop iteration, so every theorem below
  quantifies over all possible rng draws and schedulings.
  `rng.choice(lst)` on a non-empty list is modelled by indexing the
  list with an arbitrary oracle-supplied number reduced mod its length.
* Python `set` values are modelled by `Finset ℕ`; `sorted(open_set)`
  and `list(neighbor_open)` are modelled by the sorted element list.
  Python dicts keyed by client index, built in ascending client order,
  are modelled by association lists `List (ℕ × ℕ)`.
* `local_search` raising `ValueError` (instance infeasible) is
  modelled by returning `none`.
-/

namespace FLP

/-- Oracle record for one iteration of a search loop: the rng draws and
the outcome of the wall-clock deadline comparison. `moveType` models
`rng.choice(["open", "close", "swap"])` (reduced mod 3), `pick1` and
`pick2` model the facility draws, `accept` models the outcome of
`rng.random() < accept_prob` in the metropolis test, and `timeOk`
models `time.time() < time_deadline`. -/
structure Decision where
  moveType : ℕ
  pick1 : ℕ
  pick2 : ℕ
  accept : Bool
  timeOk : Bool

/-- Models `rng.choice(l)` for a non-empty list `l`: an arbitrary
element of `l`, selected by the oracle number `k`. -/
def pickFrom (l : List ℕ) (k : ℕ) : ℕ :=
  l.getD (k % l.length) 0

/-- Models Python's `sorted(open_set)` (and the enumeration
`list(neighbor_open)`): the ascending list of the elements of the set.
Implemented by insertion sort on a representative so that the kernel
can evaluate it on concrete sets. -/
def sortFinset (s : Finset ℕ) : List ℕ :=
  Quot.lift (List.insertionSort (· ≤ ·))
    (fun l₁ l₂ h =>
      List.eq_of_perm_of_sorted
        (((List.perm_insertionSort _ l₁).trans h).trans
          (List.perm_insertionSort _ l₂).symm)
        (List.sorted_insertionSort _ l₁) (List.sorted_insertionSort _ l₂))
    s.val

/-- Update of the `(best_f, best_d)` incumbent for one scanned
facility `f` at distance `d`: replace exactly when
`d <= coverage and d < best_d` (the starting `best_d` is `inf`,
modelled by the `none` incumbent). -/
def bfUpdate (coverage : ℚ) (f : ℕ) (d : ℚ) (acc : Option (ℕ × ℚ)) :
    Option (ℕ × ℚ) :=
  match acc with
  | none => if d ≤ coverage then some (f, d) else none
  | some q => if d ≤ coverage ∧ d < q.2 then some (f, d) else some q

/-- Inner loop of `assign_clients_with_hard_coverage` over the sorted
open list for one client `c`: tracks `(best_f, best_d)`, starting from
`(None, inf)` (modelled by `none`). -/
def bestFacilityGo (dist : ℕ → ℕ → ℚ) (coverage : ℚ) (c : ℕ) :
    List ℕ → Option (ℕ × ℚ) → Option (ℕ × ℚ)
  | [], acc => acc
  | f :: fs, acc =>
      bestFacilityGo dist coverage c fs (bfUpdate coverage f (dist c f) acc)

/-- The `(best_f, best_d)` pair computed for client `c` by scanning
`openList` (the sorted open set). -/
def bestFacility (dist : ℕ → ℕ → ℚ) (coverage : ℚ) (c : ℕ)
    (openList : List ℕ) : Option (ℕ × ℚ) :=
  bestFacilityGo dist coverage c openList none

/-- Outer loop of `assign_clients_with_hard_coverage` over the client
indices: builds the assignment dict (in ascending client order) and the
running total distance, returning `none` as soon as some client has no
open facility within coverage. -/
def assignGo (dist : ℕ → ℕ → ℚ) (coverage : ℚ) (openList : List ℕ) :
    List ℕ → Option (List (ℕ × ℕ) × ℚ)
  | [] => some ([], 0)
  | c :: cs =>
      match bestFacility dist coverage c openList with
      | none => none
      | some q =>
          match assignGo dist coverage openList cs with
          | none => none
          | some (a, t) => some ((c, q.1) :: a, q.2 + t)

/-- Model of `assign_clients_with_hard_coverage(open_set, dist, coverage)`.
Returns the triple `(assignment, feasible, total_dist)`; the Python
values `None` and `float("inf")` are both modelled by `none`. -/
def assign_clients_with_hard_coverage (C : ℕ) (openSet : Finset ℕ)
    (dist : ℕ → ℕ → ℚ) (coverage : ℚ) :
    Option (List (ℕ × ℕ)) × Bool × Option ℚ :=
  if openSet = ∅ then (none, false, none)
  else
    match assignGo dist coverage (sortFinset openSet) (List.range C) with
    | none => (none, false, none)
    | some (a, t) => (some a, true, some t)

/-- Model of `OPEN_WEIGHT = 1_000.0`. -/
def OPEN_WEIGHT : ℚ := 1000

/-- Model of `objective(num_open, total_dist)`. -/
def objective (numOpen : ℕ) (totalDist : ℚ) : ℚ :=
  numOpen * OPEN_WEIGHT + totalDist

/-- Model of `initial_solution`: all facilities open. -/
def initial_solution (F : ℕ) : Finset ℕ :=
  Finset.range F

/-- Model of `MIN_T = 1e-4`. -/
def MIN_T : ℚ := 1 / 10000

/-- Model of `COOLING = 0.995`. -/
def COOLING : ℚ := 995 / 1000

/-- Search state of one `local_search` run: the current solution, the
best-so-far solution, the temperature and the iteration counter. -/
structure SAState where
  currentOpen : Finset ℕ
  currAssign : List (ℕ × ℕ)
  currDist : ℚ
  currCost : ℚ
  bestOpen : Finset ℕ
  bestAssign : List (ℕ × ℕ)
  bestCost : ℚ
  T : ℚ
  iters : ℕ
deriving DecidableEq

/-- Move generation (lines 295–320 of the Python file): produce the
neighbor open-set for one OPEN / CLOSE / SWAP move, or `none` when the
move is skipped by a `continue` (no closed facility to open, at most
one open facility to close, or no partner available for a swap). -/
def genNeighbor (F : ℕ) (d : Decision) (cur : Finset ℕ) : Option (Finset ℕ) :=
  match d.moveType % 3 with
  | 0 =>
      let closed := (List.range F).filter (fun j => j ∉ cur)
      if closed.isEmpty then none
      else some (insert (pickFrom closed d.pick1) cur)
  | 1 =>
      if cur.card ≤ 1 then none
      else some (cur.erase (pickFrom (sortFinset cur) d.pick1))
  | _ =>
      if cur.card = 0 then none
      else
        let closed := (List.range F).filter (fun j => j ∉ cur)
        if closed.isEmpty then none
        else
          let jClose := pickFrom (sortFinset cur) d.pick1
          let jOpen := pickFrom closed d.pick2
          some (insert jOpen (cur.erase jClose))

/-- One iteration of the `local_search` while-loop body (the code after
the loop guard): bump `iters`, generate a move, discard it if skipped
or infeasible, otherwise apply the simulated-annealing acceptance rule
and cool the temperature. -/
def saStep (C F : ℕ) (dist : ℕ → ℕ → ℚ) (coverage : ℚ) (d : Decision)
    (st : SAState) : SAState :=
  let st1 : SAState := { st with iters := st.iters + 1 }
  match genNeighbor F d st.currentOpen with
  | none => st1
  | some nOpen =>
      match assign_clients_with_hard_coverage C nOpen dist coverage with
      | (some nAssign, true, some nDist) =>
          let nCost := objective nOpen.card nDist
          let delta := nCost - st1.currCost
          let accept : Bool := if delta ≤ 0 then true else d.accept
          let st2 :=
            if accept then
              let st3 := { st1 with currentOpen := nOpen, currAssign := nAssign,
                                    currDist := nDist, currCost := nCost }
              if nCost < st3.bestCost then
                { st3 with bestCost := nCost, bestOpen := nOpen,
                           bestAssign := nAssign }
              else st3
            else st1
          { st2 with T := st2.T * COOLING }
      | _ => st1

/-- The `local_search` while loop. The guard is the source guard
`time.time() < time_deadline and T > MIN_T and iters < max_iters` with
`max_iters = 10 * F * F`; the extra `fuel` argument only justifies the
recursion in Lean (the guard `iters < 10*F*F` already bounds the number
of iterations, which the fuel-insensitivity theorem below makes
precise). The oracle stream is indexed by the iteration counter. -/
def saLoop (C F : ℕ) (dist : ℕ → ℕ → ℚ) (coverage : ℚ)
    (ds : ℕ → Decision) : ℕ → SAState → SAState
  | 0, st => st
  | fuel + 1, st =>
      if (ds st.iters).timeOk = true ∧ MIN_T < st.T ∧ st.iters < 10 * F * F then
        saLoop C F dist coverage ds fuel (saStep C F dist coverage (ds st.iters) st)
      else st

/-- Model of `local_search(inst, dist, time_deadline, rng)`. Starts
from all facilities open; if even that configuration is infeasible the
Python code raises `ValueError`, modelled by `none`. Otherwise runs the
annealing loop and returns the best-so-far `(open_set, assignment)`. -/
def local_search (C F : ℕ) (dist : ℕ → ℕ → ℚ) (coverage : ℚ)
    (ds : ℕ → Decision) : Option (Finset ℕ × List (ℕ × ℕ)) :=
  let currentOpen := initial_solution F
  match assign_clients_with_hard_coverage C currentOpen dist coverage with
  | (some a, true, some td) =>
      let cost := objective currentOpen.card td
      let st0 : SAState :=
        ⟨currentOpen, a, td, cost, currentOpen, a, cost, 1, 0⟩
      let st := saLoop C F dist coverage ds (10 * F * F) st0
      some (st.bestOpen, st.bestAssign)
  | _ => none

/-- Running best of the anytime driver: open set, assignment and the
driver's `best_cost` (`none` models an infinite cost). -/
structure AnytimeBest where
  bOpen : Finset ℕ
  bAssign : List (ℕ × ℕ)
  bCost : Option ℚ
deriving DecidableEq

/-- The restart while-loop of `anytime`: each list element is the
oracle stream of one further `local_search` run; the list running out
models the global deadline having passed. A run that raises
`ValueError` (modelled by `none`) breaks out of the loop; a run whose
returned open set rechecks as infeasible is skipped; otherwise the
candidate replaces the running best exactly when its objective is
strictly smaller. -/
def anytimeLoop (C F : ℕ) (dist : ℕ → ℕ → ℚ) (coverage : ℚ) :
    List (ℕ → Decision) → AnytimeBest → AnytimeBest
  | [], best => best
  | ds :: rest, best =>
      match local_search C F dist coverage ds with
      | none => best
      | some (candOpen, candAssign) =>
          match assign_clients_with_hard_coverage C candOpen dist coverage with
          | (_, true, some candDist) =>
              let candCost := objective candOpen.card candDist
              let better : Bool :=
                match best.bCost with
                | none => true
                | some bc => decide (candCost < bc)
              if better then
                anytimeLoop C F dist coverage rest
                  ⟨candOpen, candAssign, some candCost⟩
              else anytimeLoop C F dist coverage rest best
          | _ => anytimeLoop C F dist coverage rest best

/-- Model of `anytime(inst, time_limit, seed)`: the first
`local_search` run executes outside any `try`, so its `ValueError`
propagates (result `none`); afterwards the driver rechecks the first
result's cost and enters the restart loop. `ds0` is the oracle stream
of the first run, `dss` those of the later runs. -/
def anytime (C F : ℕ) (dist : ℕ → ℕ → ℚ) (coverage : ℚ)
    (ds0 : ℕ → Decision) (dss : List (ℕ → Decision)) :
    Option (Finset ℕ × List (ℕ × ℕ)) :=
  match local_search C F dist coverage ds0 with
  | none => none
  | some (bOpen, bAssign) =>
      let bCost := (assign_clients_with_hard_coverage C bOpen dist coverage).2.2.map
        (fun td => objective bOpen.card td)
      let r := anytimeLoop C F dist coverage dss ⟨bOpen, bAssign, bCost⟩
      some (r.bOpen, r.bAssign)

/-- Coverage property of a returned `(open_set, assignment)` pair:
every client index `0 .. C-1` is a key of the assignment (in order),
and every assigned facility is a member of the open set within the
coverage distance of its client. -/
def coverageOK (C : ℕ) (dist : ℕ → ℕ → ℚ) (coverage : ℚ)
    (openSet : Finset ℕ) (a : List (ℕ × ℕ)) : Prop :=
  a.map Prod.fst = List.range C ∧
    ∀ p ∈ a, p.2 ∈ openSet ∧ dist p.1 p.2 ≤ coverage

instance coverageOK_decidable (C : ℕ) (dist : ℕ → ℕ → ℚ) (coverage : ℚ)
    (openSet : Finset ℕ) (a : List (ℕ × ℕ)) :
    Decidable (coverageOK C dist coverage openSet a) := by
  unfold coverageOK
  infer_instance

/-- Condition under which one loop iteration reaches the cooling
statement `T *= COOLING`: the generated move is not skipped and its
neighbor is feasible (acceptance or rejection does not matter). -/
def stepCools (C F : ℕ) (dist : ℕ → ℕ → ℚ) (coverage : ℚ) (d : Decision)
    (st : SAState) : Bool :=
  match genNeighbor F d st.currentOpen with
  | none => false
  | some nOpen => (assign_clients_with_hard_coverage C nOpen dist coverage).2.1

/-- Condition under which one loop iteration accepts its move: the move
is generated, feasible, and passes the simulated-annealing test. -/
def stepAccepts (C F : ℕ) (dist : ℕ → ℕ → ℚ) (coverage : ℚ) (d : Decision)
    (st : SAState) : Bool :=
  match genNeighbor F d st.currentOpen with
  | none => false
  | some nOpen =>
      match assign_clients_with_hard_coverage C nOpen dist coverage with
      | (some _, true, some nDist) =>
          if objective nOpen.card nDist - st.currCost ≤ 0 then true else d.accept
      | _ => false


/-! ### Properties of `sortFinset` -/

theorem mem_sortFinset {a : ℕ} {s : Finset ℕ} : a ∈ sortFinset s ↔ a ∈ s := by
  rcases s with ⟨m, nd⟩
  revert nd
  refine Quotient.inductionOn m ?_
  intro l nd
  show a ∈ List.insertionSort (· ≤ ·) l ↔ _
  rw [List.mem_insertionSort]
  simp [Finset.mem_mk]

theorem sortFinset_sorted_lt (s : Finset ℕ) : (sortFinset s).Sorted (· < ·) := by
  rcases s with ⟨m, nd⟩
  revert nd
  refine Quotient.inductionOn m ?_
  intro l nd
  show (List.insertionSort (· ≤ ·) l).Sorted (· < ·)
  refine List.Sorted.lt_of_le (List.sorted_insertionSort _ l) ?_
  exact ((List.perm_insertionSort _ l).nodup_iff).2 nd

/-! ### Properties of the per-client scan `bestFacilityGo` -/

theorem bfUpdate_eq_none {cov : ℚ} {f : ℕ} {d : ℚ} {acc : Option (ℕ × ℚ)} :
    bfUpdate cov f d acc = none ↔ acc = none ∧ ¬ d ≤ cov := by
  cases acc with
  | none => by_cases h : d ≤ cov <;> simp [bfUpdate, h]
  | some q => by_cases h : d ≤ cov ∧ d < q.2 <;> simp [bfUpdate, h]

theorem bfUpdate_some {cov : ℚ} {f : ℕ} {d : ℚ} {acc : Option (ℕ × ℚ)}
    {q : ℕ × ℚ} (h : bfUpdate cov f d acc = some q) :
    (q = (f, d) ∧ d ≤ cov) ∨ acc = some q := by
  cases acc with
  | none =>
      by_cases hc : d ≤ cov
      · simp [bfUpdate, hc] at h; exact Or.inl ⟨h.symm, hc⟩
      · simp [bfUpdate, hc] at h
  | some p =>
      by_cases hc : d ≤ cov ∧ d < p.2
      · simp [bfUpdate, hc] at h; exact Or.inl ⟨h.symm, hc.1⟩
      · simp [bfUpdate, hc] at h; exact Or.inr (by rw [h])

theorem bfUpdate_min {cov : ℚ} {f : ℕ} {d : ℚ} {acc : Option (ℕ × ℚ)}
    {q : ℕ × ℚ} (h : bfUpdate cov f d acc = some q) :
    (∀ p, acc = some p → q.2 ≤ p.2) ∧ (d ≤ cov → q.2 ≤ d) := by
  cases acc with
  | none =>
      by_cases hc : d ≤ cov
      · simp [bfUpdate, hc] at h
        subst h
        refine ⟨?_, fun _ => le_refl d⟩
        intro p hp
        cases hp
      · simp [bfUpdate, hc] at h
  | some p =>
      by_cases hc : d ≤ cov ∧ d < p.2
      · simp [bfUpdate, hc] at h
        subst h
        refine ⟨?_, fun _ => le_refl d⟩
        intro p' hp'
        injection hp' with hp'
        subst hp'
        exact le_of_lt hc.2
      · simp [bfUpdate, hc] at h
        subst h
        refine ⟨?_, ?_⟩
        · intro p' hp'; injection hp' with hp'; subst hp'; exact le_refl _
        · intro hdc
          rcases not_and_or.1 hc with h1 | h2
          · exact absurd hdc h1
          · exact le_of_not_lt h2

theorem bfUpdate_decr {cov : ℚ} {f : ℕ} {d : ℚ} {p q : ℕ × ℚ}
    (h : bfUpdate cov f d (some p) = some q) :
    q = p ∨ q.2 < p.2 := by
  by_cases hc : d ≤ cov ∧ d < p.2
  · simp [bfUpdate, hc] at h
    subst h
    exact Or.inr hc.2
  · simp [bfUpdate, hc] at h
    exact Or.inl (by rw [h])

theorem bestFacilityGo_eq_none (dist : ℕ → ℕ → ℚ) (cov : ℚ) (c : ℕ) :
    ∀ (l : List ℕ) (acc : Option (ℕ × ℚ)),
      bestFacilityGo dist cov c l acc = none →
      acc = none ∧ ∀ f ∈ l, ¬ dist c f ≤ cov := by
  intro l
  induction l with
  | nil => intro acc h; exact ⟨h, by simp⟩
  | cons f fs ih =>
      intro acc h
      simp only [bestFacilityGo] at h
      rcases ih _ h with ⟨hup, hfs⟩
      rcases bfUpdate_eq_none.1 hup with ⟨hacc, hf⟩
      refine ⟨hacc, ?_⟩
      intro g hg
      rcases List.mem_cons.1 hg with rfl | hg
      · exact hf
      · exact hfs g hg

theorem bestFacilityGo_of_none (dist : ℕ → ℕ → ℚ) (cov : ℚ) (c : ℕ) :
    ∀ (l : List ℕ) (acc : Option (ℕ × ℚ)),
      (∀ f ∈ l, ¬ dist c f ≤ cov) →
      bestFacilityGo dist cov c l acc = acc := by
  intro l
  induction l with
  | nil => intro acc _; rfl
  | cons f fs ih =>
      intro acc h
      have hf : ¬ dist c f ≤ cov := h f (List.mem_cons_self f fs)
      have hup : bfUpdate cov f (dist c f) acc = acc := by
        cases acc with
        | none => simp [bfUpdate, hf]
        | some q => simp [bfUpdate, hf]
      simp only [bestFacilityGo, hup]
      exact ih acc fun g hg => h g (List.mem_cons_of_mem _ hg)

theorem bestFacilityGo_some (dist : ℕ → ℕ → ℚ) (cov : ℚ) (c : ℕ) :
    ∀ (l : List ℕ) (acc : Option (ℕ × ℚ)) (q : ℕ × ℚ),
      bestFacilityGo dist cov c l acc = some q →
      acc = some q ∨ (q.1 ∈ l ∧ q.2 = dist c q.1 ∧ q.2 ≤ cov) := by
  intro l
  induction l with
  | nil => intro acc q h; exact Or.inl h
  | cons f fs ih =>
      intro acc q h
      simp only [bestFacilityGo] at h
      rcases ih _ _ h with hup | hmem
      · rcases bfUpdate_some hup with ⟨rfl, hcov⟩ | hacc
        · exact Or.inr ⟨List.mem_cons_self f fs, rfl, hcov⟩
        · exact Or.inl hacc
      · exact Or.inr ⟨List.mem_cons_of_mem _ hmem.1, hmem.2⟩

theorem bestFacilityGo_min (dist : ℕ → ℕ → ℚ) (cov : ℚ) (c : ℕ) :
    ∀ (l : List ℕ) (acc : Option (ℕ × ℚ)) (q : ℕ × ℚ),
      bestFacilityGo dist cov c l acc = some q →
      (∀ p, acc = some p → q.2 ≤ p.2) ∧
        ∀ g ∈ l, dist c g ≤ cov → q.2 ≤ dist c g := by
  intro l
  induction l with
  | nil =>
      intro acc q h
      refine ⟨?_, by simp⟩
      intro p hp
      rw [hp] at h
      injection h with h
      rw [h]
  | cons f fs ih =>
      intro acc q h
      simp only [bestFacilityGo] at h
      rcases ih _ _ h with ⟨hacc', hfs⟩
      cases hbf : bfUpdate cov f (dist c f) acc with
      | none =>
          rcases bfUpdate_eq_none.1 hbf with ⟨hacc, hfc⟩
          subst hacc
          constructor
          · intro p hp
            cases hp
          · intro g hg hgc
            rcases List.mem_cons.1 hg with rfl | hg
            · exact absurd hgc hfc
            · exact hfs g hg hgc
      | some r =>
          have hqr : q.2 ≤ r.2 := hacc' r hbf
          rcases bfUpdate_min hbf with ⟨hmono, hdle⟩
          constructor
          · intro p hp
            exact le_trans hqr (hmono p hp)
          · intro g hg hgc
            rcases List.mem_cons.1 hg with rfl | hg
            · exact le_trans hqr (hdle hgc)
            · exact hfs g hg hgc

theorem bestFacilityGo_decr (dist : ℕ → ℕ → ℚ) (cov : ℚ) (c : ℕ) :
    ∀ (l : List ℕ) (p q : ℕ × ℚ),
      bestFacilityGo dist cov c l (some p) = some q →
      q = p ∨ q.2 < p.2 := by
  intro l
  induction l with
  | nil =>
      intro p q h
      injection h with h
      exact Or.inl h.symm
  | cons f fs ih =>
      intro p q h
      simp only [bestFacilityGo] at h
      cases hbf : bfUpdate cov f (dist c f) (some p) with
      | none => exact absurd hbf (by simp [bfUpdate_eq_none])
      | some r =>
          rw [hbf] at h
          rcases bfUpdate_decr hbf with rfl | hlt
          · exact ih _ _ h
          · rcases ih _ _ h with rfl | h2
            · exact Or.inr hlt
            · exact Or.inr (lt_trans h2 hlt)


theorem bestFacilityGo_tie (dist : ℕ → ℕ → ℚ) (cov : ℚ) (c : ℕ) :
    ∀ (l : List ℕ) (acc : Option (ℕ × ℚ)) (q : ℕ × ℚ),
      l.Sorted (· < ·) →
      (∀ p, acc = some p → ∀ g ∈ l, p.1 < g) →
      bestFacilityGo dist cov c l acc = some q →
      ∀ g ∈ l, dist c g ≤ cov → dist c g = q.2 → q.1 ≤ g := by
  intro l
  induction l with
  | nil => intro acc q _ _ _ g hg; cases hg
  | cons f fs ih =>
      intro acc q hsort hacc h g hg hgc hgd
      have hsf : ∀ g ∈ fs, f < g := fun g hg => (List.sorted_cons.1 hsort).1 g hg
      have hsort' : fs.Sorted (· < ·) := (List.sorted_cons.1 hsort).2
      simp only [bestFacilityGo] at h
      rcases List.mem_cons.1 hg with rfl | hgfs
      · cases hbf : bfUpdate cov g (dist c g) acc with
        | none =>
            rcases bfUpdate_eq_none.1 hbf with ⟨_, hfc⟩
            exact absurd hgc hfc
        | some r =>
            rw [hbf] at h
            have hq : q = r ∨ q.2 < r.2 := bestFacilityGo_decr dist cov c fs _ _ h
            rcases bfUpdate_some hbf with ⟨hr, _⟩ | haccr
            · subst hr
              rcases hq with rfl | hlt
              · exact le_refl _
              · exact absurd hlt (by show ¬ q.2 < dist c g; rw [hgd]; exact lt_irrefl _)
            · have hltg : r.1 < g := hacc r haccr g (List.mem_cons_self g fs)
              rcases hq with rfl | hlt
              · exact le_of_lt hltg
              · have hrle : r.2 ≤ dist c g := (bfUpdate_min hbf).2 hgc
                rw [hgd] at hrle
                exact absurd hlt (not_lt.2 hrle)
      · refine ih (bfUpdate cov f (dist c f) acc) q hsort' ?_ h g hgfs hgc hgd
        intro p hp g' hg'
        rcases bfUpdate_some hp with ⟨rfl, _⟩ | haccp
        · exact hsf g' hg'
        · exact hacc p haccp g' (List.mem_cons_of_mem _ hg')

theorem assignGo_some (dist : ℕ → ℕ → ℚ) (cov : ℚ) (openList : List ℕ) :
    ∀ (cs : List ℕ) (a : List (ℕ × ℕ)) (t : ℚ),
      assignGo dist cov openList cs = some (a, t) →
      a.map Prod.fst = cs ∧
        t = (a.map fun p => dist p.1 p.2).sum ∧
        ∀ p ∈ a, bestFacility dist cov p.1 openList = some (p.2, dist p.1 p.2) := by
  intro cs
  induction cs with
  | nil =>
      intro a t h
      simp only [assignGo] at h
      injection h with h
      injection h with h1 h2
      subst h1; subst h2
      simp
  | cons c cs ih =>
      intro a t h
      simp only [assignGo] at h
      cases hbf : bestFacility dist cov c openList with
      | none => rw [hbf] at h; cases h
      | some q =>
          rw [hbf] at h
          cases hgo : assignGo dist cov openList cs with
          | none => rw [hgo] at h; cases h
          | some r =>
              rw [hgo] at h
              rcases r with ⟨a', t'⟩
              injection h with h
              injection h with h1 h2
              subst h1; subst h2
              rcases ih a' t' hgo with ⟨hkeys, hsum, hvals⟩
              have hq2 : q.2 = dist c q.1 := by
                rcases bestFacilityGo_some dist cov c openList none q hbf with hn | ⟨_, h2, _⟩
                · cases hn
                · exact h2
              refine ⟨by simp [hkeys], by simp [hsum, hq2], ?_⟩
              intro p hp
              rcases List.mem_cons.1 hp with rfl | hp
              · simpa [← hq2] using hbf
              · exact hvals p hp

theorem assignGo_none (dist : ℕ → ℕ → ℚ) (cov : ℚ) (openList : List ℕ) :
    ∀ (cs : List ℕ) (c : ℕ), c ∈ cs →
      bestFacility dist cov c openList = none →
      assignGo dist cov openList cs = none := by
  intro cs
  induction cs with
  | nil => intro c hc; cases hc
  | cons c' cs ih =>
      intro c hc hbf
      simp only [assignGo]
      rcases List.mem_cons.1 hc with rfl | hc
      · rw [hbf]
      · cases hbf' : bestFacility dist cov c' openList with
        | none => rfl
        | some q => rw [ih c hc hbf]

theorem assignGo_isSome (dist : ℕ → ℕ → ℚ) (cov : ℚ) (openList : List ℕ) :
    ∀ (cs : List ℕ),
      (∀ c ∈ cs, bestFacility dist cov c openList ≠ none) →
      ∃ a t, assignGo dist cov openList cs = some (a, t) := by
  intro cs
  induction cs with
  | nil => intro _; exact ⟨[], 0, rfl⟩
  | cons c cs ih =>
      intro h
      cases hbf : bestFacility dist cov c openList with
      | none => exact absurd hbf (h c (List.mem_cons_self c cs))
      | some q =>
          rcases ih (fun c' hc' => h c' (List.mem_cons_of_mem _ hc')) with ⟨a, t, hgo⟩
          refine ⟨(c, q.1) :: a, q.2 + t, ?_⟩
          simp only [assignGo, hbf, hgo]


/-! ### Properties of `assign_clients_with_hard_coverage` -/

theorem assign_shape (C : ℕ) (openSet : Finset ℕ) (dist : ℕ → ℕ → ℚ) (cov : ℚ) :
    assign_clients_with_hard_coverage C openSet dist cov = (none, false, none) ∨
      ∃ a t, assign_clients_with_hard_coverage C openSet dist cov =
        (some a, true, some t) := by
  unfold assign_clients_with_hard_coverage
  by_cases h : openSet = ∅
  · rw [if_pos h]; exact Or.inl rfl
  · rw [if_neg h]
    cases hgo : assignGo dist cov (sortFinset openSet) (List.range C) with
    | none => exact Or.inl rfl
    | some r => exact Or.inr ⟨r.1, r.2, rfl⟩

theorem assign_inv {C : ℕ} {openSet : Finset ℕ} {dist : ℕ → ℕ → ℚ} {cov : ℚ}
    {a : List (ℕ × ℕ)} {t : ℚ}
    (h : assign_clients_with_hard_coverage C openSet dist cov = (some a, true, some t)) :
    openSet ≠ ∅ ∧ assignGo dist cov (sortFinset openSet) (List.range C) = some (a, t) := by
  unfold assign_clients_with_hard_coverage at h
  by_cases hem : openSet = ∅
  · rw [if_pos hem] at h; cases h
  · rw [if_neg hem] at h
    cases hgo : assignGo dist cov (sortFinset openSet) (List.range C) with
    | none => rw [hgo] at h; cases h
    | some r =>
        rw [hgo] at h
        rcases r with ⟨a', t'⟩
        injection h with h1 h23
        injection h23 with h2 h3
        injection h1 with h1
        injection h3 with h3
        subst h1; subst h3
        exact ⟨hem, rfl⟩

theorem assign_entries {C : ℕ} {openSet : Finset ℕ} {dist : ℕ → ℕ → ℚ} {cov : ℚ}
    {a : List (ℕ × ℕ)} {t : ℚ}
    (h : assign_clients_with_hard_coverage C openSet dist cov = (some a, true, some t)) :
    a.map Prod.fst = List.range C ∧
      t = (a.map fun p => dist p.1 p.2).sum ∧
      ∀ p ∈ a, p.2 ∈ openSet ∧ dist p.1 p.2 ≤ cov ∧
        (∀ g ∈ openSet, dist p.1 g ≤ cov → dist p.1 p.2 ≤ dist p.1 g) ∧
        (∀ g ∈ openSet, dist p.1 g ≤ cov → dist p.1 g = dist p.1 p.2 → p.2 ≤ g) := by
  rcases assign_inv h with ⟨_, hgo⟩
  rcases assignGo_some dist cov _ _ _ _ hgo with ⟨hkeys, hsum, hvals⟩
  refine ⟨hkeys, hsum, ?_⟩
  intro p hp
  have hbf := hvals p hp
  have hmem : p.2 ∈ openSet := by
    rcases bestFacilityGo_some dist cov p.1 _ _ _ hbf with hn | ⟨hm, _, _⟩
    · cases hn
    · exact mem_sortFinset.1 hm
  have hcov : dist p.1 p.2 ≤ cov := by
    rcases bestFacilityGo_some dist cov p.1 _ _ _ hbf with hn | ⟨_, _, hc⟩
    · cases hn
    · exact hc
  refine ⟨hmem, hcov, ?_, ?_⟩
  · intro g hg hgc
    exact (bestFacilityGo_min dist cov p.1 _ _ _ hbf).2 g (mem_sortFinset.2 hg) hgc
  · intro g hg hgc hgd
    exact bestFacilityGo_tie dist cov p.1 _ _ _ (sortFinset_sorted_lt openSet)
      (by intro p' hp'; cases hp') hbf g (mem_sortFinset.2 hg) hgc hgd

theorem assign_of_covered {C : ℕ} {openSet : Finset ℕ} {dist : ℕ → ℕ → ℚ} {cov : ℚ}
    (h1 : openSet ≠ ∅) (h2 : ∀ c, c < C → ∃ f ∈ openSet, dist c f ≤ cov) :
    ∃ a t, assign_clients_with_hard_coverage C openSet dist cov =
      (some a, true, some t) := by
  have hbf : ∀ c ∈ List.range C, bestFacility dist cov c (sortFinset openSet) ≠ none := by
    intro c hc hnone
    rcases h2 c (List.mem_range.1 hc) with ⟨f, hf, hfc⟩
    rcases bestFacilityGo_eq_none dist cov c _ _ hnone with ⟨_, hall⟩
    exact hall f (mem_sortFinset.2 hf) hfc
  rcases assignGo_isSome dist cov (sortFinset openSet) (List.range C) hbf with ⟨a, t, hgo⟩
  refine ⟨a, t, ?_⟩
  unfold assign_clients_with_hard_coverage
  rw [if_neg h1, hgo]

theorem assign_empty (C : ℕ) (dist : ℕ → ℕ → ℚ) (cov : ℚ) :
    assign_clients_with_hard_coverage C ∅ dist cov = (none, false, none) := by
  unfold assign_clients_with_hard_coverage
  rw [if_pos rfl]

theorem assign_uncovered {C : ℕ} {openSet : Finset ℕ} {dist : ℕ → ℕ → ℚ} {cov : ℚ}
    {c : ℕ} (hc : c < C) (h : ∀ f ∈ openSet, ¬ dist c f ≤ cov) :
    assign_clients_with_hard_coverage C openSet dist cov = (none, false, none) := by
  by_cases hem : openSet = ∅
  · subst hem; exact assign_empty C dist cov
  · have hbf : bestFacility dist cov c (sortFinset openSet) = none := by
      unfold bestFacility
      exact bestFacilityGo_of_none dist cov c _ none
        (fun f hf => h f (mem_sortFinset.1 hf))
    have hgo := assignGo_none dist cov (sortFinset openSet) (List.range C) c
      (List.mem_range.2 hc) hbf
    unfold assign_clients_with_hard_coverage
    rw [if_neg hem, hgo]


/-! ### Claim C2 -/

/-- C2: for every non-empty `open_set` such that every client has at
least one open facility within coverage,
`assign_clients_with_hard_coverage` returns `feasible=True`, an
assignment mapping every client index to an open facility whose
distance to the client is minimal among the open facilities within
coverage (hence ≤ coverage), and `total_dist` equal to the sum over
all clients of the distance to their assigned facility. -/
theorem C2_assign_covered_correct (C : ℕ) (openSet : Finset ℕ)
    (dist : ℕ → ℕ → ℚ) (cov : ℚ)
    (h1 : openSet ≠ ∅) (h2 : ∀ c, c < C → ∃ f ∈ openSet, dist c f ≤ cov) :
    ∃ a t, assign_clients_with_hard_coverage C openSet dist cov =
        (some a, true, some t) ∧
      a.map Prod.fst = List.range C ∧
      (∀ p ∈ a, p.2 ∈ openSet ∧ dist p.1 p.2 ≤ cov ∧
        ∀ g ∈ openSet, dist p.1 g ≤ cov → dist p.1 p.2 ≤ dist p.1 g) ∧
      t = (a.map fun p => dist p.1 p.2).sum := by
  rcases assign_of_covered h1 h2 with ⟨a, t, h⟩
  rcases assign_entries h with ⟨hkeys, hsum, hvals⟩
  exact ⟨a, t, h, hkeys,
    fun p hp => ⟨(hvals p hp).1, (hvals p hp).2.1, (hvals p hp).2.2.1⟩, hsum⟩

/-- Witness for C2 at a concrete feasible input. -/
theorem C2_assign_covered_correct_witness :
    ∃ a t, assign_clients_with_hard_coverage 2 {0, 1}
        (fun c f => if c = f then 1 else 3) 2 = (some a, true, some t) ∧
      a.map Prod.fst = List.range 2 ∧
      (∀ p ∈ a, p.2 ∈ ({0, 1} : Finset ℕ) ∧
        (fun c f : ℕ => if c = f then (1 : ℚ) else 3) p.1 p.2 ≤ 2 ∧
        ∀ g ∈ ({0, 1} : Finset ℕ),
          (fun c f : ℕ => if c = f then (1 : ℚ) else 3) p.1 g ≤ 2 →
          (fun c f : ℕ => if c = f then (1 : ℚ) else 3) p.1 p.2 ≤
            (fun c f : ℕ => if c = f then (1 : ℚ) else 3) p.1 g) ∧
      t = (a.map fun p =>
        (fun c f : ℕ => if c = f then (1 : ℚ) else 3) p.1 p.2).sum :=
  C2_assign_covered_correct 2 {0, 1} (fun c f => if c = f then 1 else 3) 2
    (by decide) (by with_unfolding_all decide)

/-! ### Claim C3 -/

/-- C3: `assign_clients_with_hard_coverage` reports infeasibility
exactly as specified: the empty `open_set` immediately yields
`(None, False, inf)`, and whenever some client has no open facility
within coverage the result is `(None, False, inf)` — no partial
assignment, infinite total distance — for every open set and distance
matrix (`none` in the third component models `float("inf")`). -/
theorem C3_assign_infeasible_report :
    (∀ (C : ℕ) (dist : ℕ → ℕ → ℚ) (cov : ℚ),
      assign_clients_with_hard_coverage C ∅ dist cov = (none, false, none)) ∧
    ∀ (C : ℕ) (openSet : Finset ℕ) (dist : ℕ → ℕ → ℚ) (cov : ℚ) (c : ℕ),
      c < C → (∀ f ∈ openSet, ¬ dist c f ≤ cov) →
      assign_clients_with_hard_coverage C openSet dist cov =
        (none, false, none) := by
  constructor
  · intro C dist cov
    exact assign_empty C dist cov
  · intro C openSet dist cov c hc h
    exact assign_uncovered hc h

/-- Witness for C3: the empty open set, and a client out of range of
every open facility. -/
theorem C3_assign_infeasible_report_witness :
    assign_clients_with_hard_coverage 1 ∅ (fun _ _ => 0) 1 =
      (none, false, none) ∧
    assign_clients_with_hard_coverage 1 {0} (fun _ _ => 5) 1 =
      (none, false, none) :=
  ⟨C3_assign_infeasible_report.1 1 (fun _ _ => 0) 1,
    C3_assign_infeasible_report.2 1 {0} (fun _ _ => 5) 1 0 (by decide)
      (by with_unfolding_all decide)⟩

/-! ### Claim C10 -/

/-- C10: when several open facilities within coverage achieve the same
minimal distance to a client, `assign_clients_with_hard_coverage`
assigns the one with the lowest facility index (the open set is
scanned in ascending index order and the incumbent is replaced only on
a strictly smaller distance). Determinism of the whole function is
definitional in this embedding: it is a pure function of
`(open_set, dist, coverage)`, mirroring the Python code's freedom from
global state. -/
theorem C10_assign_tiebreak_lowest_index (C : ℕ) (openSet : Finset ℕ)
    (dist : ℕ → ℕ → ℚ) (cov : ℚ) (a : List (ℕ × ℕ)) (t : ℚ)
    (h : assign_clients_with_hard_coverage C openSet dist cov =
      (some a, true, some t)) :
    ∀ p ∈ a, p.2 ∈ openSet ∧ dist p.1 p.2 ≤ cov ∧
      ∀ g ∈ openSet, dist p.1 g ≤ cov → dist p.1 g = dist p.1 p.2 → p.2 ≤ g := by
  intro p hp
  rcases (assign_entries h).2.2 p hp with ⟨hmem, hcov, _, htie⟩
  exact ⟨hmem, hcov, htie⟩

/-- Witness for C10 at a concrete input where both open facilities tie
at distance 1: the returned facility is index 0, the lower index. -/
theorem C10_assign_tiebreak_lowest_index_witness :
    (0, 0).2 ∈ ({0, 1} : Finset ℕ) ∧ (fun _ _ : ℕ => (1 : ℚ)) 0 0 ≤ 1 ∧
      ∀ g ∈ ({0, 1} : Finset ℕ), (fun _ _ : ℕ => (1 : ℚ)) 0 g ≤ 1 →
        (fun _ _ : ℕ => (1 : ℚ)) 0 g = (fun _ _ : ℕ => (1 : ℚ)) 0 0 →
        (0, 0).2 ≤ g :=
  C10_assign_tiebreak_lowest_index 1 {0, 1} (fun _ _ => 1) 1 [(0, 0)] 1
    (by with_unfolding_all decide) (0, 0) (by decide)


/-! ### Case analysis of one annealing iteration -/

theorem saStep_of_skip {C F : ℕ} {dist : ℕ → ℕ → ℚ} {cov : ℚ} {d : Decision}
    {st : SAState} (h : genNeighbor F d st.currentOpen = none) :
    saStep C F dist cov d st = { st with iters := st.iters + 1 } := by
  unfold saStep
  rw [h]

theorem saStep_of_infeasible {C F : ℕ} {dist : ℕ → ℕ → ℚ} {cov : ℚ}
    {d : Decision} {st : SAState} {nOpen : Finset ℕ}
    (h : genNeighbor F d st.currentOpen = some nOpen)
    (hA : assign_clients_with_hard_coverage C nOpen dist cov = (none, false, none)) :
    saStep C F dist cov d st = { st with iters := st.iters + 1 } := by
  unfold saStep
  simp only [h, hA]

theorem saStep_of_feasible {C F : ℕ} {dist : ℕ → ℕ → ℚ} {cov : ℚ}
    {d : Decision} {st : SAState} {nOpen : Finset ℕ} {nAssign : List (ℕ × ℕ)}
    {nDist : ℚ}
    (h : genNeighbor F d st.currentOpen = some nOpen)
    (hA : assign_clients_with_hard_coverage C nOpen dist cov =
      (some nAssign, true, some nDist)) :
    saStep C F dist cov d st =
      (let nCost := objective nOpen.card nDist
       let accept : Bool := if nCost - st.currCost ≤ 0 then true else d.accept
       let st2 :=
         if accept then
           if nCost < st.bestCost then
             { st with currentOpen := nOpen, currAssign := nAssign,
                       currDist := nDist, currCost := nCost,
                       bestOpen := nOpen, bestAssign := nAssign,
                       bestCost := nCost, iters := st.iters + 1 }
           else
             { st with currentOpen := nOpen, currAssign := nAssign,
                       currDist := nDist, currCost := nCost,
                       iters := st.iters + 1 }
         else { st with iters := st.iters + 1 }
       { st2 with T := st2.T * COOLING }) := by
  unfold saStep
  simp only [h, hA]


theorem saStep_iters (C F : ℕ) (dist : ℕ → ℕ → ℚ) (cov : ℚ) (d : Decision)
    (st : SAState) : (saStep C F dist cov d st).iters = st.iters + 1 := by
  cases hG : genNeighbor F d st.currentOpen with
  | none => rw [saStep_of_skip hG]
  | some nOpen =>
      rcases assign_shape C nOpen dist cov with hA | ⟨a, t, hA⟩
      · rw [saStep_of_infeasible hG hA]
      · rw [saStep_of_feasible hG hA]
        dsimp only
        by_cases hb : (if objective nOpen.card t - st.currCost ≤ 0 then true
            else d.accept) = true
        · rw [if_pos hb]
          by_cases hlt : objective nOpen.card t < st.bestCost
          · rw [if_pos hlt]
          · rw [if_neg hlt]
        · rw [if_neg hb]

theorem saStep_bestCost_le (C F : ℕ) (dist : ℕ → ℕ → ℚ) (cov : ℚ)
    (d : Decision) (st : SAState) :
    (saStep C F dist cov d st).bestCost ≤ st.bestCost := by
  cases hG : genNeighbor F d st.currentOpen with
  | none => rw [saStep_of_skip hG]
  | some nOpen =>
      rcases assign_shape C nOpen dist cov with hA | ⟨a, t, hA⟩
      · rw [saStep_of_infeasible hG hA]
      · rw [saStep_of_feasible hG hA]
        dsimp only
        by_cases hb : (if objective nOpen.card t - st.currCost ≤ 0 then true
            else d.accept) = true
        · rw [if_pos hb]
          by_cases hlt : objective nOpen.card t < st.bestCost
          · rw [if_pos hlt]
            exact le_of_lt hlt
          · rw [if_neg hlt]
        · rw [if_neg hb]

theorem saStep_T (C F : ℕ) (dist : ℕ → ℕ → ℚ) (cov : ℚ) (d : Decision)
    (st : SAState) :
    (saStep C F dist cov d st).T =
      if stepCools C F dist cov d st = true then st.T * COOLING else st.T := by
  cases hG : genNeighbor F d st.currentOpen with
  | none =>
      have hc : stepCools C F dist cov d st = false := by
        unfold stepCools; rw [hG]
      rw [saStep_of_skip hG, hc]
      simp
  | some nOpen =>
      rcases assign_shape C nOpen dist cov with hA | ⟨a, t, hA⟩
      · have hc : stepCools C F dist cov d st = false := by
          unfold stepCools
          simp only [hG, hA]
        rw [saStep_of_infeasible hG hA, hc]
        simp
      · have hc : stepCools C F dist cov d st = true := by
          unfold stepCools
          simp only [hG, hA]
        rw [saStep_of_feasible hG hA, hc]
        dsimp only
        rw [if_pos rfl]
        by_cases hb : (if objective nOpen.card t - st.currCost ≤ 0 then true
            else d.accept) = true
        · rw [if_pos hb]
          by_cases hlt : objective nOpen.card t < st.bestCost
          · rw [if_pos hlt]
          · rw [if_neg hlt]
        · rw [if_neg hb]

theorem saStep_frame {C F : ℕ} {dist : ℕ → ℕ → ℚ} {cov : ℚ} {d : Decision}
    {st : SAState} (h : stepAccepts C F dist cov d st = false) :
    (saStep C F dist cov d st).currentOpen = st.currentOpen ∧
      (saStep C F dist cov d st).currAssign = st.currAssign ∧
      (saStep C F dist cov d st).currDist = st.currDist ∧
      (saStep C F dist cov d st).currCost = st.currCost ∧
      (saStep C F dist cov d st).bestOpen = st.bestOpen ∧
      (saStep C F dist cov d st).bestAssign = st.bestAssign ∧
      (saStep C F dist cov d st).bestCost = st.bestCost := by
  cases hG : genNeighbor F d st.currentOpen with
  | none =>
      rw [saStep_of_skip hG]
      exact ⟨rfl, rfl, rfl, rfl, rfl, rfl, rfl⟩
  | some nOpen =>
      rcases assign_shape C nOpen dist cov with hA | ⟨a, t, hA⟩
      · rw [saStep_of_infeasible hG hA]
        exact ⟨rfl, rfl, rfl, rfl, rfl, rfl, rfl⟩
      · have hacc : (if objective nOpen.card t - st.currCost ≤ 0 then true
            else d.accept) = false := by
          simp only [stepAccepts, hG, hA] at h
          exact h
        rw [saStep_of_feasible hG hA]
        dsimp only
        rw [hacc]
        refine ⟨?_, ?_, ?_, ?_, ?_, ?_, ?_⟩ <;> simp

theorem saStep_best_feasible {C F : ℕ} {dist : ℕ → ℕ → ℚ} {cov : ℚ}
    {d : Decision} {st : SAState}
    (hinv : ∃ t, assign_clients_with_hard_coverage C st.bestOpen dist cov =
      (some st.bestAssign, true, some t)) :
    ∃ t, assign_clients_with_hard_coverage C (saStep C F dist cov d st).bestOpen
        dist cov = (some (saStep C F dist cov d st).bestAssign, true, some t) := by
  cases hG : genNeighbor F d st.currentOpen with
  | none => rw [saStep_of_skip hG]; exact hinv
  | some nOpen =>
      rcases assign_shape C nOpen dist cov with hA | ⟨a, t, hA⟩
      · rw [saStep_of_infeasible hG hA]; exact hinv
      · rw [saStep_of_feasible hG hA]
        dsimp only
        by_cases hb : (if objective nOpen.card t - st.currCost ≤ 0 then true
            else d.accept) = true
        · rw [if_pos hb]
          by_cases hlt : objective nOpen.card t < st.bestCost
          · rw [if_pos hlt]
            exact ⟨t, hA⟩
          · rw [if_neg hlt]
            exact hinv
        · rw [if_neg hb]
          exact hinv


/-! ### Properties of the annealing loop -/

theorem saLoop_iters_le (C F : ℕ) (dist : ℕ → ℕ → ℚ) (cov : ℚ)
    (ds : ℕ → Decision) :
    ∀ (fuel : ℕ) (st : SAState),
      (saLoop C F dist cov ds fuel st).iters ≤ max st.iters (10 * F * F) := by
  intro fuel
  induction fuel with
  | zero => intro st; exact le_max_left _ _
  | succ fuel ih =>
      intro st
      rw [saLoop]
      split
      · next hcond =>
          rcases hcond with ⟨_, _, hlt⟩
          have h1 := ih (saStep C F dist cov (ds st.iters) st)
          rw [saStep_iters] at h1
          refine le_trans h1 ?_
          rw [max_eq_right (Nat.succ_le_of_lt hlt)]
          exact le_max_right _ _
      · exact le_max_left _ _

theorem saLoop_of_done (C F : ℕ) (dist : ℕ → ℕ → ℚ) (cov : ℚ)
    (ds : ℕ → Decision) :
    ∀ (fuel : ℕ) (st : SAState), 10 * F * F ≤ st.iters →
      saLoop C F dist cov ds fuel st = st := by
  intro fuel
  induction fuel with
  | zero => intro st _; rfl
  | succ fuel _ =>
      intro st hge
      rw [saLoop]
      rw [if_neg]
      intro hcond
      exact absurd hcond.2.2 (not_lt.2 hge)

theorem saLoop_fuel_congr (C F : ℕ) (dist : ℕ → ℕ → ℚ) (cov : ℚ)
    (ds : ℕ → Decision) :
    ∀ (n m : ℕ) (st : SAState),
      10 * F * F ≤ st.iters + n → 10 * F * F ≤ st.iters + m →
      saLoop C F dist cov ds n st = saLoop C F dist cov ds m st := by
  intro n
  induction n with
  | zero =>
      intro m st hn _
      rw [Nat.add_zero] at hn
      rw [saLoop_of_done C F dist cov ds m st hn]
      rfl
  | succ n ih =>
      intro m st hn hm
      cases m with
      | zero =>
          rw [Nat.add_zero] at hm
          rw [saLoop_of_done C F dist cov ds (n + 1) st hm]
          rfl
      | succ m =>
          rw [saLoop, saLoop]
          by_cases hcond : (ds st.iters).timeOk = true ∧ MIN_T < st.T ∧
              st.iters < 10 * F * F
          · rw [if_pos hcond, if_pos hcond]
            refine ih m (saStep C F dist cov (ds st.iters) st) ?_ ?_ <;>
              rw [saStep_iters] <;> omega
          · rw [if_neg hcond, if_neg hcond]

theorem saLoop_bestCost_le (C F : ℕ) (dist : ℕ → ℕ → ℚ) (cov : ℚ)
    (ds : ℕ → Decision) :
    ∀ (fuel : ℕ) (st : SAState),
      (saLoop C F dist cov ds fuel st).bestCost ≤ st.bestCost := by
  intro fuel
  induction fuel with
  | zero => intro st; exact le_refl _
  | succ fuel ih =>
      intro st
      rw [saLoop]
      split
      · exact le_trans (ih _) (saStep_bestCost_le C F dist cov (ds st.iters) st)
      · exact le_refl _

theorem saLoop_T_pow (C F : ℕ) (dist : ℕ → ℕ → ℚ) (cov : ℚ)
    (ds : ℕ → Decision) :
    ∀ (fuel : ℕ) (st : SAState),
      ∃ j, (saLoop C F dist cov ds fuel st).T = st.T * COOLING ^ j ∧
        st.iters + j ≤ (saLoop C F dist cov ds fuel st).iters := by
  intro fuel
  induction fuel with
  | zero =>
      intro st
      exact ⟨0, by simp [saLoop], by simp [saLoop]⟩
  | succ fuel ih =>
      intro st
      rw [saLoop]
      split
      · rcases ih (saStep C F dist cov (ds st.iters) st) with ⟨j, hT, hit⟩
        rw [saStep_iters] at hit
        have hsT := saStep_T C F dist cov (ds st.iters) st
        cases hcool : stepCools C F dist cov (ds st.iters) st with
        | false =>
            rw [hcool] at hsT
            simp only [Bool.false_eq_true, if_false] at hsT
            rw [hsT] at hT
            exact ⟨j, hT, by omega⟩
        | true =>
            rw [hcool] at hsT
            simp only [if_true] at hsT
            rw [hsT] at hT
            refine ⟨j + 1, ?_, by omega⟩
            rw [hT, pow_succ]
            ring
      · exact ⟨0, by rw [pow_zero, mul_one], by rw [Nat.add_zero]⟩

theorem saLoop_best_feasible {C F : ℕ} {dist : ℕ → ℕ → ℚ} {cov : ℚ}
    {ds : ℕ → Decision} :
    ∀ (fuel : ℕ) (st : SAState),
      (∃ t, assign_clients_with_hard_coverage C st.bestOpen dist cov =
        (some st.bestAssign, true, some t)) →
      ∃ t, assign_clients_with_hard_coverage C
          (saLoop C F dist cov ds fuel st).bestOpen dist cov =
        (some (saLoop C F dist cov ds fuel st).bestAssign, true, some t) := by
  intro fuel
  induction fuel with
  | zero => intro st h; exact h
  | succ fuel ih =>
      intro st h
      rw [saLoop]
      split
      · exact ih _ (saStep_best_feasible h)
      · exact h


/-! ### Properties of `local_search` and `anytime` -/

theorem coverageOK_of_assign {C : ℕ} {openSet : Finset ℕ} {dist : ℕ → ℕ → ℚ}
    {cov : ℚ} {a : List (ℕ × ℕ)} {t : ℚ}
    (h : assign_clients_with_hard_coverage C openSet dist cov =
      (some a, true, some t)) :
    coverageOK C dist cov openSet a := by
  rcases assign_entries h with ⟨hkeys, _, hvals⟩
  exact ⟨hkeys, fun p hp => ⟨(hvals p hp).1, (hvals p hp).2.1⟩⟩

theorem local_search_some_feasible {C F : ℕ} {dist : ℕ → ℕ → ℚ} {cov : ℚ}
    {ds : ℕ → Decision} {r : Finset ℕ × List (ℕ × ℕ)}
    (h : local_search C F dist cov ds = some r) :
    ∃ t, assign_clients_with_hard_coverage C r.1 dist cov =
      (some r.2, true, some t) := by
  unfold local_search at h
  rcases assign_shape C (initial_solution F) dist cov with hA | ⟨a, td, hA⟩
  · simp only [hA] at h
    exact Option.noConfusion h
  · simp only [hA] at h
    cases h
    exact saLoop_best_feasible _ _ ⟨td, hA⟩

theorem local_search_eq_none_iff {C F : ℕ} {dist : ℕ → ℕ → ℚ} {cov : ℚ}
    {ds : ℕ → Decision} :
    local_search C F dist cov ds = none ↔
      assign_clients_with_hard_coverage C (initial_solution F) dist cov =
        (none, false, none) := by
  constructor
  · intro h
    rcases assign_shape C (initial_solution F) dist cov with hA | ⟨a, td, hA⟩
    · exact hA
    · unfold local_search at h
      simp only [hA] at h
      exact Option.noConfusion h
  · intro hA
    unfold local_search
    simp only [hA]

theorem anytimeLoop_best_feasible {C F : ℕ} {dist : ℕ → ℕ → ℚ} {cov : ℚ} :
    ∀ (dss : List (ℕ → Decision)) (best : AnytimeBest),
      (∃ t, assign_clients_with_hard_coverage C best.bOpen dist cov =
        (some best.bAssign, true, some t)) →
      ∃ t, assign_clients_with_hard_coverage C
          (anytimeLoop C F dist cov dss best).bOpen dist cov =
        (some (anytimeLoop C F dist cov dss best).bAssign, true, some t) := by
  intro dss
  induction dss with
  | nil => intro best h; exact h
  | cons ds rest ih =>
      intro best h
      rw [anytimeLoop]
      cases hls : local_search C F dist cov ds with
      | none => exact h
      | some r =>
          rcases r with ⟨candOpen, candAssign⟩
          dsimp only
          rcases assign_shape C candOpen dist cov with hA2 | ⟨a2, t2, hA2⟩
          · rw [hA2]
            exact ih best h
          · rw [hA2]
            dsimp only
            split
            · refine ih _ ?_
              rcases local_search_some_feasible hls with ⟨t', hfeas⟩
              exact ⟨t', hfeas⟩
            · exact ih best h

theorem anytime_some_feasible {C F : ℕ} {dist : ℕ → ℕ → ℚ} {cov : ℚ}
    {ds0 : ℕ → Decision} {dss : List (ℕ → Decision)}
    {r : Finset ℕ × List (ℕ × ℕ)}
    (h : anytime C F dist cov ds0 dss = some r) :
    ∃ t, assign_clients_with_hard_coverage C r.1 dist cov =
      (some r.2, true, some t) := by
  unfold anytime at h
  cases hls : local_search C F dist cov ds0 with
  | none => rw [hls] at h; cases h
  | some p =>
      rcases p with ⟨bOpen, bAssign⟩
      rw [hls] at h
      dsimp only at h
      cases h
      exact anytimeLoop_best_feasible dss _ (local_search_some_feasible hls)

/-! ### Claim C1 -/

/-- C1: for every instance that is feasible with all facilities open,
every `(open_set, assignment)` pair returned by `local_search` or by
`anytime` satisfies: every client index is a key of the assignment,
its assigned facility is a member of the returned open set, and the
client-facility distance recorded in the distance matrix (the
Euclidean distance computed by `precompute_distances`) is at most
`coverage_distance`. Both quantifications range over all rng draws
and schedulings (`ds`, `ds0`, `dss`). -/
theorem C1_coverage_invariant (C F : ℕ) (dist : ℕ → ℕ → ℚ) (cov : ℚ)
    (_hfeas : (assign_clients_with_hard_coverage C (initial_solution F)
      dist cov).2.1 = true) :
    (∀ (ds : ℕ → Decision) (r : Finset ℕ × List (ℕ × ℕ)),
      local_search C F dist cov ds = some r →
      coverageOK C dist cov r.1 r.2) ∧
    ∀ (ds0 : ℕ → Decision) (dss : List (ℕ → Decision))
      (r : Finset ℕ × List (ℕ × ℕ)),
      anytime C F dist cov ds0 dss = some r →
      coverageOK C dist cov r.1 r.2 := by
  constructor
  · intro ds r h
    rcases local_search_some_feasible h with ⟨t, hfeas'⟩
    exact coverageOK_of_assign hfeas'
  · intro ds0 dss r h
    rcases anytime_some_feasible h with ⟨t, hfeas'⟩
    exact coverageOK_of_assign hfeas'

/-- Witness for C1 on a concrete one-client one-facility instance. -/
theorem C1_coverage_invariant_witness :
    coverageOK 1 (fun _ _ => 0) 0 ({0} : Finset ℕ) [(0, 0)] ∧
    coverageOK 1 (fun _ _ => 0) 0 ({0} : Finset ℕ) [(0, 0)] :=
  ⟨(C1_coverage_invariant 1 1 (fun _ _ => 0) 0 (by with_unfolding_all decide)).1
      (fun _ => ⟨0, 0, 0, false, false⟩) ({0}, [(0, 0)])
      (by with_unfolding_all decide),
    (C1_coverage_invariant 1 1 (fun _ _ => 0) 0 (by with_unfolding_all decide)).2
      (fun _ => ⟨0, 0, 0, false, false⟩) [] ({0}, [(0, 0)])
      (by with_unfolding_all decide)⟩

/-! ### Claim C4 -/

/-- C4: when even the all-facilities-open configuration is infeasible,
`local_search` raises `ValueError` (modelled by `none`) and never
returns a solution; the anytime driver's first run executes outside
the `try` block, so the error propagates out of `anytime` (result
`none`); and in the driver's restart loop a run that raises is caught
and the loop stops, returning the driver's best solution so far. -/
theorem C4_infeasible_error (C F : ℕ) (dist : ℕ → ℕ → ℚ) (cov : ℚ) :
    (∀ ds : ℕ → Decision,
      assign_clients_with_hard_coverage C (initial_solution F) dist cov =
        (none, false, none) →
      local_search C F dist cov ds = none) ∧
    (∀ (ds0 : ℕ → Decision) (dss : List (ℕ → Decision)),
      assign_clients_with_hard_coverage C (initial_solution F) dist cov =
        (none, false, none) →
      anytime C F dist cov ds0 dss = none) ∧
    ∀ (ds : ℕ → Decision) (rest : List (ℕ → Decision)) (best : AnytimeBest),
      local_search C F dist cov ds = none →
      anytimeLoop C F dist cov (ds :: rest) best = best := by
  refine ⟨?_, ?_, ?_⟩
  · intro ds hA
    exact local_search_eq_none_iff.2 hA
  · intro ds0 dss hA
    unfold anytime
    rw [local_search_eq_none_iff.2 hA]
  · intro ds rest best hls
    rw [anytimeLoop, hls]

/-- Witness for C4 on a concrete infeasible instance (one client at
distance 5 from the only facility, coverage 1). -/
theorem C4_infeasible_error_witness :
    local_search 1 1 (fun _ _ => 5) 1 (fun _ => ⟨0, 0, 0, false, true⟩) = none ∧
    anytime 1 1 (fun _ _ => 5) 1 (fun _ => ⟨0, 0, 0, false, true⟩) [] = none ∧
    anytimeLoop 1 1 (fun _ _ => 5) 1 [fun _ => ⟨0, 0, 0, false, true⟩]
      ⟨∅, [], none⟩ = ⟨∅, [], none⟩ :=
  ⟨(C4_infeasible_error 1 1 (fun _ _ => 5) 1).1 _ (by with_unfolding_all decide),
    (C4_infeasible_error 1 1 (fun _ _ => 5) 1).2.1 _ []
      (by with_unfolding_all decide),
    (C4_infeasible_error 1 1 (fun _ _ => 5) 1).2.2 _ [] ⟨∅, [], none⟩
      ((C4_infeasible_error 1 1 (fun _ _ => 5) 1).1 _
        (by with_unfolding_all decide))⟩


/-! ### Claim C5 -/

/-- C5 as stated is false: on an iteration whose move is skipped by a
`continue` (or whose neighbor is infeasible) the statement
`T *= COOLING` is never reached. Concretely, with a single facility
every OPEN/CLOSE/SWAP move is skipped, so after 10 iterations the
temperature is still `1`, not `1 * COOLING ^ 10`. -/
theorem C5_cooling_counterexample :
    (saLoop 1 1 (fun _ _ => 0) 0 (fun _ => ⟨0, 0, 0, false, true⟩) (10 * 1 * 1)
        ⟨{0}, [(0, 0)], 0, 1000, {0}, [(0, 0)], 1000, 1, 0⟩).iters = 10 ∧
    (saLoop 1 1 (fun _ _ => 0) 0 (fun _ => ⟨0, 0, 0, false, true⟩) (10 * 1 * 1)
        ⟨{0}, [(0, 0)], 0, 1000, {0}, [(0, 0)], 1000, 1, 0⟩).T = 1 ∧
    (1 : ℚ) ≠ 1 * COOLING ^ 10 := by
  refine ⟨by with_unfolding_all decide, by with_unfolding_all decide, ?_⟩
  intro hcon
  rw [one_mul] at hcon
  have hlt : COOLING ^ 10 < 1 := by
    refine pow_lt_one₀ ?_ ?_ (by norm_num)
    · norm_num [COOLING]
    · norm_num [COOLING]
  exact absurd hcon.symm (ne_of_lt hlt)

/-- C5 amended: within a run the temperature is multiplied by the
cooling rate exactly on those iterations that generate a non-skipped,
feasible move — regardless of whether the move is then accepted or
rejected; hence after any number of loop iterations `T` equals
`T₀ × COOLING ^ j` where `j` counts those iterations (so `j` is at
most the number of iterations executed). -/
theorem C5_cooling_amended (C F : ℕ) (dist : ℕ → ℕ → ℚ) (cov : ℚ) :
    (∀ (d : Decision) (st : SAState),
      (saStep C F dist cov d st).T =
        if stepCools C F dist cov d st = true then st.T * COOLING else st.T) ∧
    ∀ (ds : ℕ → Decision) (fuel : ℕ) (st : SAState),
      ∃ j, (saLoop C F dist cov ds fuel st).T = st.T * COOLING ^ j ∧
        st.iters + j ≤ (saLoop C F dist cov ds fuel st).iters :=
  ⟨saStep_T C F dist cov, saLoop_T_pow C F dist cov⟩

/-! ### Claim C6 -/

/-- C6: within a single run the best-so-far objective value is
non-increasing: each iteration of the loop can only lower
`bestCost`, and the whole loop's final `bestCost` is at most its
starting value — in `local_search`, the objective of the all-open
initial solution. -/
theorem C6_best_cost_monotone (C F : ℕ) (dist : ℕ → ℕ → ℚ) (cov : ℚ) :
    (∀ (d : Decision) (st : SAState),
      (saStep C F dist cov d st).bestCost ≤ st.bestCost) ∧
    (∀ (ds : ℕ → Decision) (fuel : ℕ) (st : SAState),
      (saLoop C F dist cov ds fuel st).bestCost ≤ st.bestCost) ∧
    ∀ (ds : ℕ → Decision) (fuel : ℕ) (a : List (ℕ × ℕ)) (td : ℚ),
      (saLoop C F dist cov ds fuel
        ⟨initial_solution F, a, td, objective (initial_solution F).card td,
          initial_solution F, a, objective (initial_solution F).card td,
          1, 0⟩).bestCost ≤ objective (initial_solution F).card td :=
  ⟨saStep_bestCost_le C F dist cov, saLoop_bestCost_le C F dist cov,
    fun ds fuel _ _ => saLoop_bestCost_le C F dist cov ds fuel _⟩

/-! ### Claim C8 -/

/-- C8: one `local_search` run terminates after at most `10 * F * F`
iterations of its loop, for every oracle stream — in particular for
streams whose deadline check never triggers (`timeOk` always true) and
whatever the temperature does. The first conjunct bounds the final
iteration counter; the second shows the loop is insensitive to any
fuel beyond the `iters < 10 * F * F` guard, i.e. the guard alone has
already stopped it. `local_search` enters the loop with
`st.iters = 0`, so its run executes at most `10 * F * F` iterations. -/
theorem C8_iteration_bound (C F : ℕ) (dist : ℕ → ℕ → ℚ) (cov : ℚ)
    (ds : ℕ → Decision) :
    (∀ (fuel : ℕ) (st : SAState),
      (saLoop C F dist cov ds fuel st).iters ≤ max st.iters (10 * F * F)) ∧
    ∀ (n m : ℕ) (st : SAState),
      10 * F * F ≤ st.iters + n → 10 * F * F ≤ st.iters + m →
      saLoop C F dist cov ds n st = saLoop C F dist cov ds m st :=
  ⟨saLoop_iters_le C F dist cov ds, saLoop_fuel_congr C F dist cov ds⟩

/-- Witness for C8: with one facility and a never-expiring clock the
loop runs exactly its cap; extra fuel beyond the cap changes nothing. -/
theorem C8_iteration_bound_witness :
    (saLoop 1 1 (fun _ _ => 0) 0 (fun _ => ⟨0, 0, 0, false, true⟩) (10 * 1 * 1)
        ⟨{0}, [(0, 0)], 0, 1000, {0}, [(0, 0)], 1000, 1, 0⟩).iters ≤
      max 0 (10 * 1 * 1) ∧
    saLoop 1 1 (fun _ _ => 0) 0 (fun _ => ⟨0, 0, 0, false, true⟩) 10
        ⟨{0}, [(0, 0)], 0, 1000, {0}, [(0, 0)], 1000, 1, 0⟩ =
      saLoop 1 1 (fun _ _ => 0) 0 (fun _ => ⟨0, 0, 0, false, true⟩) 13
        ⟨{0}, [(0, 0)], 0, 1000, {0}, [(0, 0)], 1000, 1, 0⟩ :=
  ⟨(C8_iteration_bound 1 1 (fun _ _ => 0) 0 (fun _ => ⟨0, 0, 0, false, true⟩)).1
      (10 * 1 * 1) ⟨{0}, [(0, 0)], 0, 1000, {0}, [(0, 0)], 1000, 1, 0⟩,
    (C8_iteration_bound 1 1 (fun _ _ => 0) 0 (fun _ => ⟨0, 0, 0, false, true⟩)).2
      10 13 ⟨{0}, [(0, 0)], 0, 1000, {0}, [(0, 0)], 1000, 1, 0⟩
      (by decide) (by decide)⟩

/-! ### Claim C9 -/

/-- C9: an iteration whose move is skipped, whose neighbor is
infeasible, or whose feasible neighbor is rejected by the acceptance
rule leaves the current open-set, current assignment, current distance
and current cost — and the best-so-far solution — exactly unchanged.
In this embedding the neighbor is by construction a separate value
derived from the current open-set (`genNeighbor` returns a new set),
mirroring `set(current_open)` taking a copy. -/
theorem C9_reject_frame (C F : ℕ) (dist : ℕ → ℕ → ℚ) (cov : ℚ) :
    ∀ (d : Decision) (st : SAState),
      stepAccepts C F dist cov d st = false →
      (saStep C F dist cov d st).currentOpen = st.currentOpen ∧
        (saStep C F dist cov d st).currAssign = st.currAssign ∧
        (saStep C F dist cov d st).currDist = st.currDist ∧
        (saStep C F dist cov d st).currCost = st.currCost ∧
        (saStep C F dist cov d st).bestOpen = st.bestOpen ∧
        (saStep C F dist cov d st).bestAssign = st.bestAssign ∧
        (saStep C F dist cov d st).bestCost = st.bestCost :=
  fun _ _ h => saStep_frame h

/-- Witness for C9 on a concrete skipped move (single facility, every
move type is a no-op). -/
theorem C9_reject_frame_witness :
    (saStep 1 1 (fun _ _ => 0) 0 ⟨0, 0, 0, false, true⟩
        ⟨{0}, [(0, 0)], 0, 1000, {0}, [(0, 0)], 1000, 1, 0⟩).currentOpen =
      ({0} : Finset ℕ) ∧
      (saStep 1 1 (fun _ _ => 0) 0 ⟨0, 0, 0, false, true⟩
          ⟨{0}, [(0, 0)], 0, 1000, {0}, [(0, 0)], 1000, 1, 0⟩).currAssign =
        [(0, 0)] ∧
      (saStep 1 1 (fun _ _ => 0) 0 ⟨0, 0, 0, false, true⟩
          ⟨{0}, [(0, 0)], 0, 1000, {0}, [(0, 0)], 1000, 1, 0⟩).currDist = 0 ∧
      (saStep 1 1 (fun _ _ => 0) 0 ⟨0, 0, 0, false, true⟩
          ⟨{0}, [(0, 0)], 0, 1000, {0}, [(0, 0)], 1000, 1, 0⟩).currCost = 1000 ∧
      (saStep 1 1 (fun _ _ => 0) 0 ⟨0, 0, 0, false, true⟩
          ⟨{0}, [(0, 0)], 0, 1000, {0}, [(0, 0)], 1000, 1, 0⟩).bestOpen =
        ({0} : Finset ℕ) ∧
      (saStep 1 1 (fun _ _ => 0) 0 ⟨0, 0, 0, false, true⟩
          ⟨{0}, [(0, 0)], 0, 1000, {0}, [(0, 0)], 1000, 1, 0⟩).bestAssign =
        [(0, 0)] ∧
      (saStep 1 1 (fun _ _ => 0) 0 ⟨0, 0, 0, false, true⟩
          ⟨{0}, [(0, 0)], 0, 1000, {0}, [(0, 0)], 1000, 1, 0⟩).bestCost = 1000 :=
  C9_reject_frame 1 1 (fun _ _ => 0) 0 ⟨0, 0, 0, false, true⟩
    ⟨{0}, [(0, 0)], 0, 1000, {0}, [(0, 0)], 1000, 1, 0⟩
    (by with_unfolding_all decide)

end FLP
